import Mathlib

/-!
# Verification of the MRPT `CGPSInterface` GNSS stream-processing core

Shallow embedding of the GNSS byte-stream processing core declared in
`src/libs/hwdrivers/include/mrpt/hwdrivers/CGPSInterface.h`.

Bytes are modelled as `Nat` values (the C++ buffer is
`circular_buffer<uint8_t>`); byte streams are `List Nat`.  The repository
snapshot contains only the class header (declarations, doc comments and a
few inline member definitions); the bodies of `processBuffer`,
`implement_parser_NMEA`, `implement_parser_NOVATEL_OEM6`, `doProcess`,
`getLastGGA`, `setParser`/`getParser` and the JAVAD/AIM correction
forwarder are not under `src/`, so those operations are modelled from the
specification, as flagged in each doc comment.  The inline members
`setExternCOM` and `useExternCOM` are translated directly from the header
source.
-/

/-- ASCII / protocol byte constants used by the two framing protocols. -/
def DOLLAR : Nat := 36   -- NMEA sentence start marker
def STAR : Nat := 42     -- NMEA checksum marker
def LF : Nat := 10       -- NMEA terminator
def CR : Nat := 13       -- optional carriage return before the terminator
def COMMA : Nat := 44    -- NMEA field separator

/-- Modelled from the spec: the NMEA "sanity length" after which an
unterminated prefix is discarded as corrupt (§4.2 of the spec; the exact
constant is not given by the header, `120` comfortably exceeds the 82-byte
maximum of a legal NMEA-0183 sentence). -/
def MAXN : Nat := 120

/-- Result of one scan step of a frame extractor over the unconsumed
buffer: either it needs more bytes (consuming nothing), or it consumes the
first `k` bytes, optionally emitting one successfully decoded frame. -/
inductive StepRes where
  | needMore : StepRes
  | consumed : Nat → Option (List Nat) → StepRes
deriving DecidableEq, Repr

/-- Index of the first occurrence of byte `t`, if any. -/
def firstIdx (t : Nat) : List Nat → Option Nat
  | [] => none
  | a :: rest => if a = t then some 0 else (firstIdx t rest).map (· + 1)

/-- XOR-fold of a byte list (the NMEA checksum and the modelled binary CRC). -/
def xorAll (l : List Nat) : Nat := l.foldl Nat.xor 0

/-- Value of an ASCII hex digit, if the byte is one. -/
def hexVal (c : Nat) : Option Nat :=
  if 48 ≤ c ∧ c ≤ 57 then some (c - 48)
  else if 65 ≤ c ∧ c ≤ 70 then some (c - 55)
  else if 97 ≤ c ∧ c ≤ 102 then some (c - 87)
  else none

/-- Drop one trailing carriage return, if present. -/
def stripCR (l : List Nat) : List Nat :=
  if l.getLast? = some CR then l.dropLast else l

/-- Modelled from the spec (§4.2): an NMEA sentence `$FIELDS*hh` passes the
checksum check when the XOR of the field bytes equals the two hex digits
following the `*`. -/
def nmeaChecksumOK (s : List Nat) : Bool :=
  match (s.drop 1).reverse with
  | h2 :: h1 :: 42 :: frev =>
    match hexVal h1, hexVal h2 with
    | some a, some b => xorAll frev.reverse == 16 * a + b
    | _, _ => false
  | _ => false

/-- Modelled from the spec (§4.2): recognized sentence identifiers are the
`GGA` and `RMC` families (address field ending in `GGA` or `RMC`). -/
def nmeaRecognized (s : List Nat) : Bool :=
  let addr := (s.drop 1).takeWhile (· != COMMA)
  addr.reverse.take 3 == [65, 71, 71] || addr.reverse.take 3 == [67, 77, 82]

/-- Modelled from the spec: decode one terminated NMEA sentence (missing
body of `CGPSInterface::parse_NMEA`): strip the optional `\r`, validate the
checksum, and accept only recognized sentence families; the decoded frame
is the validated raw sentence. -/
def nmeaDecode (sent : List Nat) : Option (List Nat) :=
  let s := stripCR sent
  if nmeaChecksumOK s && nmeaRecognized s then some s else none

/-- Modelled from the spec (§4.2): one scan step of the missing body of
`CGPSInterface::implement_parser_NMEA`.  Scan for the next `$`, then the
next terminator `\n` after it; no terminator leaves the buffer untouched
unless the unterminated prefix from the `$` exceeds the sanity length, in
which case it is discarded as corrupt; a terminated sentence is consumed
through its terminator whether or not it validates. -/
def nmeaStep (buf : List Nat) : StepRes :=
  match firstIdx DOLLAR buf with
  | none => .needMore
  | some i =>
    match firstIdx LF (buf.drop i) with
    | some j => .consumed (i + j + 1) (nmeaDecode ((buf.drop i).take j))
    | none =>
      if MAXN < (buf.drop i).length then .consumed buf.length none else .needMore

/-- The two-byte Novatel synchronization preamble (modelled constant). -/
def isPre (l : List Nat) : Bool := l.take 2 == [170, 68]

/-- Index of the first two-byte preamble occurrence, if any. -/
def findPre : List Nat → Option Nat
  | [] => none
  | a :: rest => if isPre (a :: rest) then some 0 else (findPre rest).map (· + 1)

/-- Modelled from the spec (§4.3): trailing-CRC check of a full binary
frame (header plus payload followed by one CRC byte). -/
def nvCRCok (fr : List Nat) : Bool :=
  match fr.reverse with
  | c :: rest => xorAll rest.reverse == c
  | [] => false

/-- Modelled from the spec (§4.3): recognized binary message IDs; unknown
IDs are consumed and ignored. -/
def nvKnownId (id : Nat) : Bool := id == 1 || id == 2

/-- Header length of the modelled binary frame layout:
`[sync0, sync1, msgId, payloadLen]`. -/
def NVHDR : Nat := 4

/-- Modelled from the spec (§4.3): one scan step of the missing body of
`CGPSInterface::implement_parser_NOVATEL_OEM6`.  Scan for the preamble; if
the header or the declared full frame is not yet available, consume
nothing; once fully available validate the CRC — on mismatch advance past
the preamble only, on success consume the whole frame and emit it when its
message ID is recognized. -/
def nvStep (buf : List Nat) : StepRes :=
  match findPre buf with
  | none => .needMore
  | some i =>
    if (buf.drop i).length < NVHDR then .needMore
    else if (buf.drop i).length < NVHDR + (buf.drop i).getD 3 0 + 1 then .needMore
    else if nvCRCok ((buf.drop i).take (NVHDR + (buf.drop i).getD 3 0 + 1)) then
      .consumed (i + (NVHDR + (buf.drop i).getD 3 0 + 1))
        (if nvKnownId (((buf.drop i).take (NVHDR + (buf.drop i).getD 3 0 + 1)).getD 2 0) then
          some ((buf.drop i).take (NVHDR + (buf.drop i).getD 3 0 + 1)) else none)
    else .consumed (i + 2) none

/-- Fuelled frame-extraction loop: repeatedly apply a scan step to the
buffer, collecting emitted frames, until the step needs more bytes. -/
def drainF (step : List Nat → StepRes) : Nat → List Nat → List Nat × List (List Nat)
  | 0, buf => (buf, [])
  | fuel + 1, buf =>
    match step buf with
    | .needMore => (buf, [])
    | .consumed k f =>
      let r := drainF step fuel (buf.drop k)
      (r.1, f.toList ++ r.2)

/-- Run a frame extractor to quiescence on a buffer (the buffer length is
enough fuel because every consuming step removes at least one byte). -/
def procD (step : List Nat → StepRes) (buf : List Nat) : List Nat × List (List Nat) :=
  drainF step buf.length buf

/-- The parser selection enum of `CGPSInterface` (header, lines 100-104). -/
inductive PARSERS where
  | NMEA : PARSERS
  | NOVATEL_OEM6 : PARSERS
deriving DecidableEq, Repr

/-- Scan step selected by the session's parser. -/
def stepOf : PARSERS → List Nat → StepRes
  | .NMEA => nmeaStep
  | .NOVATEL_OEM6 => nvStep

/-- Modelled from the spec: the missing body of
`CGPSInterface::processBuffer` — extract all currently complete frames of
the selected parser from the buffer, removing consumed bytes. -/
def procOnce (p : PARSERS) (buf : List Nat) : List Nat × List (List Nat) :=
  procD (stepOf p) buf

/-- Feed a sequence of byte chunks through successive `processBuffer`
invocations, starting from leftover buffer `buf`; returns the final
leftover and the concatenated emitted frames. -/
def procFeedD (step : List Nat → StepRes) : List Nat → List (List Nat) → List Nat × List (List Nat)
  | buf, [] => (buf, [])
  | buf, c :: cs =>
    let r1 := procD step (buf ++ c)
    let r2 := procFeedD step r1.1 cs
    (r2.1, r1.2 ++ r2.2)

/-- Chunked processing with the selected parser. -/
def procFeed (p : PARSERS) (buf : List Nat) (chunks : List (List Nat)) :
    List Nat × List (List Nat) :=
  procFeedD (stepOf p) buf chunks

/-- The condition under which NMEA chunked processing is independent of
chunk boundaries: every window of `MAXN + 1` consecutive stream bytes
contains a terminator, so the corrupt-prefix discard can never fire on a
prefix that a later chunk would have terminated. -/
def runsOK (s : List Nat) : Prop :=
  ∀ i : Nat, i < s.length → MAXN < (s.drop i).length →
    LF ∈ (s.drop i).take (MAXN + 1)

instance (s : List Nat) : Decidable (runsOK s) := by
  unfold runsOK; exact Nat.decidableBallLT _ _

/-- Spec-side chunking condition per parser: the binary parser has no
discard rule, so it is unconditional. -/
def condOf : PARSERS → List Nat → Prop
  | .NMEA => runsOK
  | .NOVATEL_OEM6 => fun _ => True

/-- Per-frame fix information: `some true` when the frame's fix-quality /
validity field indicates a valid fix, `some false` when it indicates loss,
`none` when the frame carries no fix information (modelled from the spec:
GGA field 6 is the fix quality, `0` meaning no fix; RMC field 2 is the
validity flag, `A` valid / other invalid). -/
def fieldsSplit : List Nat → List (List Nat)
  | [] => [[]]
  | c :: rest =>
    if c = COMMA then [] :: fieldsSplit rest
    else
      match fieldsSplit rest with
      | [] => [[c]]
      | f :: fs => (c :: f) :: fs

/-- The field bytes of a validated sentence frame (between `$` and `*`). -/
def sentFields (fr : List Nat) : List Nat :=
  match (fr.drop 1).reverse with
  | _ :: _ :: 42 :: frev => frev.reverse
  | _ => []

/-- Is a decoded frame a GGA-family sentence? -/
def isGGAframe (fr : List Nat) : Bool :=
  ((fr.drop 1).takeWhile (· != COMMA)).reverse.take 3 == [65, 71, 71]

/-- Is a decoded frame an RMC-family sentence? -/
def isRMCframe (fr : List Nat) : Bool :=
  ((fr.drop 1).takeWhile (· != COMMA)).reverse.take 3 == [67, 77, 82]

/-- Fix information carried by one decoded frame (see `fieldsSplit`). -/
def frameFix (fr : List Nat) : Option Bool :=
  let parts := fieldsSplit (sentFields fr)
  if isGGAframe fr then
    match parts.get? 6 with
    | some q => if q = [] then none else some (q != [48])
    | none => none
  else if isRMCframe fr then
    match parts.get? 2 with
    | some v => some (v == [65])
    | none => none
  else none

/-- Select a GGA frame (used to track the `m_last_GGA` cache). -/
def selGGA (fr : List Nat) : Option (List Nat) :=
  if isGGAframe fr then some fr else none

/-- Fold a per-frame optional update over a frame list, last write wins
(the Message Assembler / state-tracker update discipline of the spec). -/
def trackFold (sel : List Nat → Option α) (a : α) (frames : List (List Nat)) : α :=
  frames.foldl (fun a f => (sel f).getD a) a

/-- The last `some` value `sel` yields on a frame list, if any. -/
def lastSel (sel : List Nat → Option α) (frames : List (List Nat)) : Option α :=
  frames.reverse.findSome? sel

/-- State of one `CGPSInterface` object: the fields of the class that the
modelled operations touch.  `m_out_COM` / `m_cs_out_COM` are pointers in
the C++ source and are modelled as `Option Nat` (a `none` models `NULL`). -/
structure GPSState where
  rx : List Nat                -- m_rx_buffer
  parser : PARSERS             -- m_parser
  comsWork : Bool              -- m_GPS_comsWork
  signalAcquired : Bool        -- m_GPS_signalAcquired
  lastGGA : List Nat           -- m_last_GGA
  out_COM : Option Nat         -- m_out_COM
  cs_out_COM : Option Nat      -- m_cs_out_COM
  AIMConfigured : Bool         -- m_AIMConfigured
  useAIMMode : Bool            -- m_useAIMMode
  COMname : List Nat           -- m_COMname
  COMbauds : Nat               -- m_COMbauds
deriving Repr

/-- Session start state (fields reset, mirrors the default constructor and
the spec's "reset only at session start"). -/
def initState : GPSState :=
  { rx := [], parser := .NMEA, comsWork := false, signalAcquired := false,
    lastGGA := [], out_COM := none, cs_out_COM := none,
    AIMConfigured := false, useAIMMode := false, COMname := [], COMbauds := 4800 }

/-- Modelled from the spec: one processing-step invocation (the missing
body of `CGPSInterface::doProcess` restricted to its stream-processing
core): append the newly read bytes, extract all complete frames, and let
the state tracker / assembler fold over the decoded frames —
`m_GPS_comsWork` is set once any frame decodes, `m_GPS_signalAcquired`
follows the latest fix-quality field, `m_last_GGA` caches the latest GGA
sentence. -/
def doProcess (s : GPSState) (chunk : List Nat) : GPSState :=
  let r := procOnce s.parser (s.rx ++ chunk)
  { s with rx := r.1,
           comsWork := s.comsWork || !r.2.isEmpty,
           signalAcquired := trackFold frameFix s.signalAcquired r.2,
           lastGGA := trackFold selGGA s.lastGGA r.2 }

/-- Iterate `doProcess` over successive byte chunks. -/
def feedState : GPSState → List (List Nat) → GPSState
  | s, [] => s
  | s, c :: cs => feedState (doProcess s c) cs

/-- The frames decoded along a `feedState` run, in order. -/
def feedFrames : GPSState → List (List Nat) → List (List Nat)
  | _, [] => []
  | s, c :: cs => (procOnce s.parser (s.rx ++ c)).2 ++ feedFrames (doProcess s c) cs

/-- `CGPSInterface::isGPS_connected` (header line 111): true if some
message has been received. -/
def isGPS_connected (s : GPSState) : Bool := s.comsWork

/-- `CGPSInterface::isGPS_signalAcquired` (header line 112). -/
def isGPS_signalAcquired (s : GPSState) : Bool := s.signalAcquired

/-- Modelled from the spec: the missing body of `CGPSInterface::setParser`
(declared at header line 119) — select the parser for incoming data. -/
def setParser (p : PARSERS) (s : GPSState) : GPSState := { s with parser := p }

/-- Modelled from the spec: the missing body of `CGPSInterface::getParser`
(declared at header line 120). -/
def getParser (s : GPSState) : PARSERS := s.parser

/-- `CGPSInterface::setExternCOM` (header lines 122-123, inline source):
`{ m_out_COM = outPort; m_cs_out_COM = csOutPort; }`. -/
def setExternCOM (outPort : Option Nat) (csOutPort : Option Nat) (s : GPSState) : GPSState :=
  { s with out_COM := outPort, cs_out_COM := csOutPort }

/-- `CGPSInterface::useExternCOM` (header line 179, inline source):
`return (m_out_COM != NULL)`. -/
def useExternCOM (s : GPSState) : Bool := s.out_COM.isSome

/-- Modelled from the spec: the missing body of `CGPSInterface::getLastGGA`
(declared at header lines 135-138): return the cached GGA text, emptying
the cache when `reset` is set. -/
def getLastGGA (reset : Bool) (s : GPSState) : List Nat × GPSState :=
  (s.lastGGA, if reset then { s with lastGGA := [] } else s)

/-- Error taxonomy of the correction forwarder (spec §7). -/
inductive FwdErr where
  | ForwarderInactive : FwdErr
deriving DecidableEq, Repr

/-- The vendor wrapper prefix of the Advanced Input Mode frame: `">>"`
(header lines 170-172). -/
def AIM_PRE : List Nat := [62, 62]

/-- Modelled from the spec (§4.6): the correction forwarder's `forward`
operation (the JAVAD/AIM forwarding path whose implementation is not under
`src/`): only while armed (`m_useAIMMode`), wrap the bytes with the fixed
two-byte prefix and write them to the shared output sink; otherwise fail
with `ForwarderInactive` and write nothing. -/
def forward (s : GPSState) (bytes sink : List Nat) : Except FwdErr Unit × List Nat :=
  if s.useAIMMode then (.ok (), sink ++ AIM_PRE ++ bytes) else (.error .ForwarderInactive, sink)

/-- Bytes of a string literal (used for concrete sentences). -/
def strBytes (s : String) : List Nat := s.data.map Char.toNat

/-- A valid GGA sentence longer than the sanity length, cut just before
its terminator: 121 bytes with no `\n`. -/
def cexA : List Nat := strBytes "$GPGGA," ++ List.replicate 114 120

/-- The tail of that sentence: checksum marker, correct checksum (`7A` is
the XOR of the field bytes), and terminator. -/
def cexB : List Nat := strBytes "*7A\r\n"

/-- `firstIdx` returns an index inside the list. -/
theorem firstIdx_lt {t : Nat} : ∀ {l : List Nat} {i : Nat}, firstIdx t l = some i → i < l.length := by
  intro l
  induction l with
  | nil => intro i h; simp [firstIdx] at h
  | cons a rest ih =>
    intro i h
    simp only [firstIdx] at h
    split at h
    · cases h; simp
    · cases hr : firstIdx t rest with
      | none => rw [hr] at h; simp at h
      | some j =>
        rw [hr] at h
        simp only [Option.map_some'] at h
        cases h
        have := ih hr
        simp only [List.length_cons]
        omega

/-- Appending bytes does not change the first occurrence found in the
original part. -/
theorem firstIdx_append {t : Nat} : ∀ {l : List Nat} {i : Nat} (e : List Nat),
    firstIdx t l = some i → firstIdx t (l ++ e) = some i := by
  intro l
  induction l with
  | nil => intro i e h; simp [firstIdx] at h
  | cons a rest ih =>
    intro i e h
    rw [List.cons_append]
    simp only [firstIdx] at h ⊢
    by_cases hat : a = t
    · rw [if_pos hat] at h ⊢; exact h
    · rw [if_neg hat] at h ⊢
      cases hr : firstIdx t rest with
      | none => rw [hr] at h; simp at h
      | some j => rw [hr] at h; rw [ih e hr]; exact h

/-- `firstIdx` finds nothing exactly when the byte is absent. -/
theorem firstIdx_eq_none {t : Nat} : ∀ {l : List Nat}, firstIdx t l = none ↔ t ∉ l := by
  intro l
  induction l with
  | nil => simp [firstIdx]
  | cons a rest ih =>
    simp only [firstIdx]
    by_cases hat : a = t
    · subst hat; simp
    · rw [if_neg hat]
      simp only [List.mem_cons, not_or]
      constructor
      · intro h
        cases hr : firstIdx t rest with
        | none => exact ⟨fun he => hat he.symm, ih.mp hr⟩
        | some j => rw [hr] at h; simp at h
      · intro hpair
        rw [ih.mpr hpair.2]
        rfl

/-- First occurrence of `t` after a `t`-free prefix. -/
theorem firstIdx_prepend {t : Nat} : ∀ (pre r : List Nat), t ∉ pre →
    firstIdx t (pre ++ t :: r) = some pre.length := by
  intro pre
  induction pre with
  | nil => intro r _; simp [firstIdx]
  | cons a pre ih =>
    intro r hmem
    have ha : ¬ (a = t) := fun h => hmem (h ▸ List.mem_cons_self a pre)
    rw [List.cons_append]
    simp only [firstIdx, if_neg ha]
    rw [ih r (fun h => hmem (List.mem_cons_of_mem _ h))]
    simp

/-- A found preamble needs two bytes. -/
theorem isPre_length {l : List Nat} (h : isPre l = true) : 2 ≤ l.length := by
  unfold isPre at h
  have : l.take 2 = [170, 68] := by simpa using h
  have := congrArg List.length this
  simp [List.length_take] at this
  omega

/-- The preamble test only looks at the first two bytes. -/
theorem isPre_append {l : List Nat} (e : List Nat) (h : 2 ≤ l.length) :
    isPre (l ++ e) = isPre l := by
  unfold isPre
  rw [List.take_append_of_le_length h]

/-- A found preamble index leaves at least two bytes after it. -/
theorem findPre_bound : ∀ {l : List Nat} {i : Nat}, findPre l = some i → i + 2 ≤ l.length := by
  intro l
  induction l with
  | nil => intro i h; simp [findPre] at h
  | cons a rest ih =>
    intro i h
    simp only [findPre] at h
    split at h
    · rename_i hp
      cases h
      simpa using isPre_length hp
    · cases hr : findPre rest with
      | none => rw [hr] at h; simp at h
      | some j =>
        rw [hr] at h
        simp only [Option.map_some'] at h
        cases h
        have := ih hr
        simp only [List.length_cons]
        omega

/-- Appending bytes does not change the first preamble found in the
original part. -/
theorem findPre_append : ∀ {l : List Nat} {i : Nat} (e : List Nat),
    findPre l = some i → findPre (l ++ e) = some i := by
  intro l
  induction l with
  | nil => intro i e h; simp [findPre] at h
  | cons a rest ih =>
    intro i e h
    rw [List.cons_append]
    simp only [findPre] at h ⊢
    by_cases hp : isPre (a :: rest) = true
    · rw [if_pos hp] at h
      have h2 : 2 ≤ (a :: rest).length := isPre_length hp
      have hpe : isPre (a :: (rest ++ e)) = isPre (a :: rest) := by
        have := isPre_append (l := a :: rest) e h2
        rwa [List.cons_append] at this
      rw [if_pos (hpe.trans hp)]
      exact h
    · rw [if_neg hp] at h
      cases hr : findPre rest with
      | none => rw [hr] at h; simp at h
      | some j =>
        rw [hr] at h
        have hlen : 2 ≤ rest.length := by have := findPre_bound hr; omega
        have hpe : isPre (a :: (rest ++ e)) = isPre (a :: rest) := by
          have := isPre_append (l := a :: rest) e
            (by simp only [List.length_cons]; omega)
          rwa [List.cons_append] at this
        rw [if_neg (by rw [hpe]; exact hp)]
        rw [ih e hr]
        exact h

/-- Every consuming NMEA step removes between 1 byte and the whole buffer. -/
theorem nmeaStep_bounds : ∀ {buf : List Nat} {k : Nat} {f : Option (List Nat)},
    nmeaStep buf = .consumed k f → 1 ≤ k ∧ k ≤ buf.length := by
  intro buf k f h
  unfold nmeaStep at h
  split at h
  · simp at h
  · rename_i i h36
    have hi : i < buf.length := firstIdx_lt h36
    split at h
    · rename_i j h10
      simp only [StepRes.consumed.injEq] at h
      have hj : j < (buf.drop i).length := firstIdx_lt h10
      rw [List.length_drop] at hj
      omega
    · rename_i h10
      split at h
      · rename_i hlen
        simp only [StepRes.consumed.injEq] at h
        rw [List.length_drop] at hlen
        have : 0 < MAXN := by decide
        omega
      · simp at h

/-- Every consuming binary step removes between 1 byte and the whole buffer. -/
theorem nvStep_bounds : ∀ {buf : List Nat} {k : Nat} {f : Option (List Nat)},
    nvStep buf = .consumed k f → 1 ≤ k ∧ k ≤ buf.length := by
  intro buf k f h
  unfold nvStep at h
  split at h
  · simp at h
  · rename_i i hfp
    have hi := findPre_bound hfp
    split at h
    · simp at h
    · rename_i h1
      split at h
      · simp at h
      · rename_i h2
        rw [List.length_drop] at h2
        split at h
        · simp only [StepRes.consumed.injEq] at h
          have : 0 < NVHDR := by decide
          omega
        · simp only [StepRes.consumed.injEq] at h
          omega

/-- A step that needs more bytes stops the drain loop at any fuel. -/
theorem drainF_needMore (step : List Nat → StepRes) (fuel : Nat) (buf : List Nat)
    (h : step buf = .needMore) : drainF step fuel buf = (buf, []) := by
  cases fuel with
  | zero => rfl
  | succ n => simp [drainF, h]

/-- The drain loop is fuel-insensitive once the fuel covers the buffer. -/
theorem drainF_congr (step : List Nat → StepRes)
    (hb : ∀ buf k f, step buf = .consumed k f → 1 ≤ k ∧ k ≤ buf.length) :
    ∀ m n buf, buf.length ≤ m → buf.length ≤ n →
      drainF step m buf = drainF step n buf := by
  intro m
  induction m with
  | zero =>
    intro n buf hm _
    have hbuf : buf = [] := List.length_eq_zero.mp (Nat.le_zero.mp hm)
    subst hbuf
    cases hs : step [] with
    | needMore => rw [drainF_needMore _ _ _ hs, drainF_needMore _ _ _ hs]
    | consumed k f =>
      have := hb _ _ _ hs
      simp only [List.length_nil] at this
      omega
  | succ m ih =>
    intro n buf hm hn
    cases hs : step buf with
    | needMore => rw [drainF_needMore _ _ _ hs, drainF_needMore _ _ _ hs]
    | consumed k f =>
      obtain ⟨hk1, hk2⟩ := hb _ _ _ hs
      cases n with
      | zero =>
        exfalso
        have : buf.length = 0 := Nat.le_zero.mp hn
        omega
      | succ n =>
        simp only [drainF, hs]
        have hd1 : (buf.drop k).length ≤ m := by rw [List.length_drop]; omega
        have hd2 : (buf.drop k).length ≤ n := by rw [List.length_drop]; omega
        rw [ih n (buf.drop k) hd1 hd2]

/-- One-step unfolding of `procD` on a consuming step. -/
theorem procD_cons (step : List Nat → StepRes)
    (hb : ∀ buf k f, step buf = .consumed k f → 1 ≤ k ∧ k ≤ buf.length)
    {buf : List Nat} {k : Nat} {f : Option (List Nat)}
    (h : step buf = .consumed k f) :
    procD step buf =
      ((procD step (buf.drop k)).1, f.toList ++ (procD step (buf.drop k)).2) := by
  obtain ⟨hk1, hk2⟩ := hb _ _ _ h
  obtain ⟨n, hn⟩ : ∃ n, buf.length = n + 1 := ⟨buf.length - 1, by omega⟩
  unfold procD
  rw [hn]
  simp only [drainF, h]
  rw [drainF_congr step hb n (buf.drop k).length (buf.drop k)
    (by rw [List.length_drop]; omega) (le_refl _)]

/-- `procD` on a quiescent buffer. -/
theorem procD_needMore (step : List Nat → StepRes) (buf : List Nat)
    (h : step buf = .needMore) : procD step buf = (buf, []) :=
  drainF_needMore step buf.length buf h

/-- The drain loop only ever drops a prefix of the buffer. -/
theorem drainF_leftover (step : List Nat → StepRes)
    (hb : ∀ buf k f, step buf = .consumed k f → 1 ≤ k ∧ k ≤ buf.length) :
    ∀ fuel buf, ∃ t, t ≤ buf.length ∧ (drainF step fuel buf).1 = buf.drop t := by
  intro fuel
  induction fuel with
  | zero => intro buf; exact ⟨0, Nat.zero_le _, by simp [drainF]⟩
  | succ n ih =>
    intro buf
    cases hs : step buf with
    | needMore => exact ⟨0, Nat.zero_le _, by rw [drainF_needMore _ _ _ hs]; simp⟩
    | consumed k f =>
      obtain ⟨hk1, hk2⟩ := hb _ _ _ hs
      obtain ⟨t, ht, he⟩ := ih (buf.drop k)
      rw [List.length_drop] at ht
      refine ⟨k + t, by omega, ?_⟩
      simp only [drainF, hs]
      rw [he, List.drop_drop]

/-- Under the no-overlong-run condition, a consuming NMEA step takes the
same decision after more bytes are appended (the corrupt-prefix discard is
the only non-stable branch, and `runsOK` rules it out). -/
theorem nmeaStep_mono {buf e : List Nat} {k : Nat} {f : Option (List Nat)}
    (hR : runsOK (buf ++ e)) (h : nmeaStep buf = .consumed k f) :
    nmeaStep (buf ++ e) = .consumed k f := by
  unfold nmeaStep at h ⊢
  split at h
  · simp at h
  · rename_i i h36
    have hi : i < buf.length := firstIdx_lt h36
    have hdrop : (buf ++ e).drop i = buf.drop i ++ e :=
      List.drop_append_of_le_length (le_of_lt hi)
    simp only [firstIdx_append e h36]
    rw [hdrop]
    split at h
    · rename_i j h10
      have hj : j < (buf.drop i).length := firstIdx_lt h10
      simp only [firstIdx_append e h10]
      rw [List.take_append_of_le_length (le_of_lt hj)]
      exact h
    · rename_i h10
      split at h
      · rename_i hlen
        exfalso
        have hL1 : i < (buf ++ e).length := by rw [List.length_append]; omega
        have hL2 : MAXN < ((buf ++ e).drop i).length := by
          rw [List.length_drop, List.length_append]
          rw [List.length_drop] at hlen
          omega
        have hmem := hR i hL1 hL2
        rw [hdrop, List.take_append_of_le_length
          (by rw [List.length_drop] at hlen ⊢; omega)] at hmem
        have hmem2 : LF ∈ buf.drop i := List.mem_of_mem_take hmem
        rw [firstIdx_eq_none] at h10
        exact h10 hmem2
      · simp at h

/-- A consuming binary step takes the same decision after more bytes are
appended: all of its decisions are functions of the complete frame found. -/
theorem nvStep_mono {buf e : List Nat} {k : Nat} {f : Option (List Nat)}
    (h : nvStep buf = .consumed k f) : nvStep (buf ++ e) = .consumed k f := by
  unfold nvStep at h ⊢
  split at h
  · simp at h
  · rename_i i hfp
    have hi := findPre_bound hfp
    have hNV : NVHDR = 4 := rfl
    have hdrop : (buf ++ e).drop i = buf.drop i ++ e :=
      List.drop_append_of_le_length (by omega)
    simp only [findPre_append e hfp]
    rw [hdrop]
    split at h
    · simp at h
    · rename_i h1
      rw [List.length_drop] at h1
      have h1' : ¬ ((buf.drop i ++ e).length < NVHDR) := by
        rw [List.length_append, List.length_drop]
        omega
      rw [if_neg h1']
      have hgd : (buf.drop i ++ e).getD 3 0 = (buf.drop i).getD 3 0 :=
        List.getD_append _ _ _ _ (by rw [List.length_drop]; omega)
      rw [hgd]
      split at h
      · simp at h
      · rename_i h2
        rw [List.length_drop] at h2
        have h2' : ¬ ((buf.drop i ++ e).length < NVHDR + (buf.drop i).getD 3 0 + 1) := by
          rw [List.length_append, List.length_drop]
          omega
        rw [if_neg h2']
        have htake : (buf.drop i ++ e).take (NVHDR + (buf.drop i).getD 3 0 + 1)
            = (buf.drop i).take (NVHDR + (buf.drop i).getD 3 0 + 1) :=
          List.take_append_of_le_length (by rw [List.length_drop]; omega)
        rw [htake]
        exact h

/-- `runsOK` is preserved by dropping a prefix. -/
theorem runsOK_drop {s : List Nat} (k : Nat) (h : runsOK s) : runsOK (s.drop k) := by
  intro i hi hlen
  rw [List.drop_drop]
  rw [List.drop_drop] at hlen
  have hik : k + i < s.length := by
    rw [List.length_drop] at hi
    omega
  exact h (k + i) hik hlen

/-- Generic chunk-splitting lemma for the drain loop: under a step
condition `P` that makes consuming steps stable under appends, processing
`buf ++ e` equals processing `buf` first and then its leftover with `e`. -/
theorem drainF_append (step : List Nat → StepRes) (P : List Nat → Prop)
    (hb : ∀ buf k f, step buf = .consumed k f → 1 ≤ k ∧ k ≤ buf.length)
    (hm : ∀ buf e k f, P (buf ++ e) → step buf = .consumed k f →
      step (buf ++ e) = .consumed k f)
    (hPd : ∀ s k, P s → P (s.drop k)) :
    ∀ fuel buf e, buf.length ≤ fuel → P (buf ++ e) →
      procD step (buf ++ e) =
        ((procD step ((drainF step fuel buf).1 ++ e)).1,
          (drainF step fuel buf).2 ++ (procD step ((drainF step fuel buf).1 ++ e)).2) := by
  intro fuel
  induction fuel with
  | zero =>
    intro buf e hf _
    have hbuf : buf = [] := List.length_eq_zero.mp (Nat.le_zero.mp hf)
    subst hbuf
    simp [drainF]
  | succ n ih =>
    intro buf e hf hP
    cases hs : step buf with
    | needMore =>
      rw [drainF_needMore step (n + 1) buf hs]
      simp
    | consumed k f =>
      obtain ⟨hk1, hk2⟩ := hb _ _ _ hs
      have hs2 : step (buf ++ e) = .consumed k f := hm _ _ _ _ hP hs
      have hdrop : (buf ++ e).drop k = buf.drop k ++ e := List.drop_append_of_le_length hk2
      rw [procD_cons step hb hs2, hdrop]
      have hP2 : P (buf.drop k ++ e) := by rw [← hdrop]; exact hPd _ _ hP
      have hlen : (buf.drop k).length ≤ n := by rw [List.length_drop]; omega
      rw [ih (buf.drop k) e hlen hP2]
      simp only [drainF, hs]
      simp [List.append_assoc]

/-- `procD` version of `drainF_append`. -/
theorem procD_append (step : List Nat → StepRes) (P : List Nat → Prop)
    (hb : ∀ buf k f, step buf = .consumed k f → 1 ≤ k ∧ k ≤ buf.length)
    (hm : ∀ buf e k f, P (buf ++ e) → step buf = .consumed k f →
      step (buf ++ e) = .consumed k f)
    (hPd : ∀ s k, P s → P (s.drop k))
    (buf e : List Nat) (hP : P (buf ++ e)) :
    procD step (buf ++ e) =
      ((procD step ((procD step buf).1 ++ e)).1,
        (procD step buf).2 ++ (procD step ((procD step buf).1 ++ e)).2) :=
  drainF_append step P hb hm hPd buf.length buf e (le_refl _) hP

/-- Feed-level consequence of `drainF_append`: processing a buffer followed
by the joined chunks in one go equals processing the buffer first and then
feeding the chunks one by one. -/
theorem procFeedD_join (step : List Nat → StepRes) (P : List Nat → Prop)
    (hb : ∀ buf k f, step buf = .consumed k f → 1 ≤ k ∧ k ≤ buf.length)
    (hm : ∀ buf e k f, P (buf ++ e) → step buf = .consumed k f →
      step (buf ++ e) = .consumed k f)
    (hPd : ∀ s k, P s → P (s.drop k)) :
    ∀ cs buf, P (buf ++ cs.flatten) →
      procD step (buf ++ cs.flatten) =
        ((procFeedD step (procD step buf).1 cs).1,
          (procD step buf).2 ++ (procFeedD step (procD step buf).1 cs).2) := by
  intro cs
  induction cs with
  | nil =>
    intro buf _
    simp [procFeedD]
  | cons c cs ih =>
    intro buf hP
    rw [List.flatten_cons] at hP ⊢
    rw [procD_append step P hb hm hPd buf (c ++ cs.flatten) hP]
    rw [← List.append_assoc ((procD step buf).1) c cs.flatten]
    have hP2 : P (((procD step buf).1 ++ c) ++ cs.flatten) := by
      obtain ⟨t, ht, hel⟩ := drainF_leftover step hb buf.length buf
      have hel2 : (procD step buf).1 = buf.drop t := hel
      rw [List.append_assoc, hel2, ← List.drop_append_of_le_length ht]
      exact hPd _ _ hP
    rw [ih ((procD step buf).1 ++ c) hP2]
    simp only [procFeedD]

/-- Both scan steps satisfy the consumption bounds. -/
theorem stepOf_bounds (p : PARSERS) :
    ∀ buf k f, stepOf p buf = .consumed k f → 1 ≤ k ∧ k ≤ buf.length := by
  cases p
  · exact fun _ _ _ h => nmeaStep_bounds h
  · exact fun _ _ _ h => nvStep_bounds h

/-- Both scan steps are append-stable under their chunking condition. -/
theorem stepOf_mono (p : PARSERS) :
    ∀ buf e k f, condOf p (buf ++ e) → stepOf p buf = .consumed k f →
      stepOf p (buf ++ e) = .consumed k f := by
  cases p
  · exact fun _ _ _ _ hP h => nmeaStep_mono hP h
  · exact fun _ _ _ _ _ h => nvStep_mono h

/-- The chunking condition is preserved by consuming a prefix. -/
theorem condOf_drop (p : PARSERS) : ∀ s k, condOf p s → condOf p (s.drop k) := by
  cases p
  · exact fun _ k h => runsOK_drop k h
  · exact fun _ _ _ => trivial

/-- Both scan steps wait on an empty buffer. -/
theorem stepOf_nil (p : PARSERS) : stepOf p [] = .needMore := by
  cases p <;> rfl

/-- C1 (amended): for every way of splitting a byte stream into chunks fed
across successive `processBuffer` invocations, the sequence of
successfully decoded frames (and the final leftover buffer) is identical
to feeding all the bytes in a single invocation — for the binary parser
unconditionally, and for the NMEA parser provided the stream never
contains more than the sanity length (`MAXN` = 120) of consecutive bytes
without a terminator, so that the corrupt-prefix discard never fires on a
prefix that a later chunk would have terminated. -/
theorem processBuffer_chunk_independent (p : PARSERS) (chunks : List (List Nat))
    (h : p = .NMEA → runsOK chunks.flatten) :
    procFeed p [] chunks = procOnce p chunks.flatten := by
  have hcond : condOf p chunks.flatten := by
    cases p
    · exact h rfl
    · trivial
  have hj := procFeedD_join (stepOf p) (condOf p) (stepOf_bounds p) (stepOf_mono p)
    (condOf_drop p) chunks [] (by simpa using hcond)
  rw [procD_needMore _ _ (stepOf_nil p)] at hj
  simp only [List.nil_append] at hj
  unfold procFeed procOnce
  rw [hj]

/-- Witness for C1 at a concrete two-chunk split of a valid GGA sentence. -/
theorem processBuffer_chunk_independent_witness :
    (PARSERS.NMEA = PARSERS.NMEA → runsOK [strBytes "$GPG", strBytes "GA,1*4B\n"].flatten) ∧
    procFeed .NMEA [] [strBytes "$GPG", strBytes "GA,1*4B\n"]
      = procOnce .NMEA [strBytes "$GPG", strBytes "GA,1*4B\n"].flatten :=
  ⟨fun _ => by decide, processBuffer_chunk_independent .NMEA _ (fun _ => by decide)⟩

set_option maxRecDepth 40000 in
/-- Counterexample to C1 as literally stated: a valid GGA sentence longer
than the sanity length, split just before its terminator, is discarded as
an overlong unterminated prefix by the chunked run but decoded by the
single-invocation run, so the two frame sequences differ. -/
theorem processBuffer_chunk_dependent_cex :
    ¬ (procFeed .NMEA [] [cexA, cexB] = procOnce .NMEA [cexA, cexB].flatten) := by
  decide

/-- C2: a buffered, terminated NMEA sentence whose recomputed XOR checksum
does not match is consumed whole but emits no frame: processing the bad
sentence followed by the remaining bytes is identical — frames, buffer and
every observation/state field — to processing the remaining bytes alone,
so a subsequent valid sentence decodes exactly as it would have. -/
theorem nmea_bad_checksum_skipped (s : GPSState) (mid rest : List Nat)
    (hp : s.parser = .NMEA) (hrx : s.rx = [])
    (hmid : LF ∉ mid)
    (hbad : nmeaChecksumOK (stripCR (DOLLAR :: mid)) = false) :
    doProcess s ((DOLLAR :: mid ++ [LF]) ++ rest) = doProcess s rest := by
  have hform : (DOLLAR :: mid ++ [LF]) ++ rest = (DOLLAR :: mid) ++ (LF :: rest) := by
    simp
  have hstep : nmeaStep ((DOLLAR :: mid) ++ (LF :: rest))
      = .consumed (mid.length + 2) none := by
    unfold nmeaStep
    have h36 : firstIdx DOLLAR ((DOLLAR :: mid) ++ (LF :: rest)) = some 0 := by
      rw [List.cons_append]
      simp [firstIdx, DOLLAR]
    have hnot : LF ∉ (DOLLAR :: mid) := by
      intro hm
      rcases List.mem_cons.mp hm with h | h
      · exact absurd h (by decide)
      · exact hmid h
    have h10 : firstIdx LF ((DOLLAR :: mid) ++ (LF :: rest)) = some (mid.length + 1) := by
      have := firstIdx_prepend (DOLLAR :: mid) rest hnot
      simpa using this
    simp only [h36]
    simp only [List.drop_zero, h10]
    have htake : ((DOLLAR :: mid) ++ (LF :: rest)).take (mid.length + 1) = DOLLAR :: mid := by
      have hl : (DOLLAR :: mid).length = mid.length + 1 := by simp
      rw [← hl, List.take_append_of_le_length (le_refl _), List.take_length]
    rw [htake]
    have hdec : nmeaDecode (DOLLAR :: mid) = none := by
      simp [nmeaDecode, hbad]
    rw [hdec]
    have harith : 0 + (mid.length + 1) + 1 = mid.length + 2 := by omega
    rw [harith]
  have hPeq : procD nmeaStep ((DOLLAR :: mid) ++ (LF :: rest)) = procD nmeaStep rest := by
    rw [procD_cons nmeaStep (fun _ _ _ h => nmeaStep_bounds h) hstep]
    have hdrop : ((DOLLAR :: mid) ++ (LF :: rest)).drop (mid.length + 2) = rest := by
      have hl : ((DOLLAR :: mid) ++ [LF]).length = mid.length + 2 := by simp
      have hform2 : (DOLLAR :: mid) ++ (LF :: rest) = ((DOLLAR :: mid) ++ [LF]) ++ rest := by
        simp
      rw [hform2, ← hl, List.drop_append_of_le_length (le_refl _), List.drop_length,
        List.nil_append]
    rw [hdrop]
    simp
  unfold doProcess
  rw [hp, hrx]
  simp only [List.nil_append, hform]
  rw [show procOnce PARSERS.NMEA ((DOLLAR :: mid) ++ (LF :: rest))
      = procD nmeaStep ((DOLLAR :: mid) ++ (LF :: rest)) from rfl]
  rw [show procOnce PARSERS.NMEA rest = procD nmeaStep rest from rfl]
  rw [hPeq]

/-- Witness for C2: a GGA sentence with checksum `FF` (correct is `4B`) is
dropped and the valid sentence after it decodes as if alone. -/
theorem nmea_bad_checksum_skipped_witness :
    (initState.parser = .NMEA ∧ initState.rx = [] ∧
      LF ∉ strBytes "GPGGA,1*FF" ∧
      nmeaChecksumOK (stripCR (DOLLAR :: strBytes "GPGGA,1*FF")) = false) ∧
    doProcess initState
        ((DOLLAR :: strBytes "GPGGA,1*FF" ++ [LF]) ++ strBytes "$GPGGA,1*4B\n")
      = doProcess initState (strBytes "$GPGGA,1*4B\n") :=
  ⟨by decide,
    nmea_bad_checksum_skipped initState _ _ (by decide) (by decide) (by decide) (by decide)⟩

/-- C3: when the binary parser has found the preamble but the full frame
(header, declared payload and trailing CRC) is not yet buffered, the
processing step consumes nothing — the scan position stays at or before
the preamble, so the frame can complete on a later invocation. -/
theorem novatel_incomplete_frame_no_consume (buf : List Nat) (i : Nat)
    (h1 : findPre buf = some i)
    (h2 : (buf.drop i).length < NVHDR + (buf.drop i).getD 3 0 + 1) :
    nvStep buf = .needMore ∧ procOnce .NOVATEL_OEM6 buf = (buf, []) := by
  have hstep : nvStep buf = .needMore := by
    unfold nvStep
    simp only [h1]
    by_cases hh : (buf.drop i).length < NVHDR
    · rw [if_pos hh]
    · rw [if_neg hh, if_pos h2]
  exact ⟨hstep, procD_needMore _ _ hstep⟩

/-- Witness for C3: a preamble declaring a 10-byte payload with only one
byte of it buffered. -/
theorem novatel_incomplete_frame_no_consume_witness :
    (findPre [170, 68, 5, 10, 1] = some 0 ∧
      ([170, 68, 5, 10, 1].drop 0).length
        < NVHDR + ([170, 68, 5, 10, 1].drop 0).getD 3 0 + 1) ∧
    (nvStep [170, 68, 5, 10, 1] = .needMore ∧
      procOnce .NOVATEL_OEM6 [170, 68, 5, 10, 1] = ([170, 68, 5, 10, 1], [])) :=
  ⟨by decide, novatel_incomplete_frame_no_consume _ 0 (by decide) (by decide)⟩

/-- C4: a fully buffered binary frame whose CRC fails makes the parser
advance past the preamble only and rescan, so the frames decoded from the
rest of the buffer — including a valid frame right after the corrupted
one — are exactly those of the buffer with the two preamble bytes and the
garbage before them removed. -/
theorem novatel_crc_fail_resync (buf : List Nat) (i : Nat)
    (h1 : findPre buf = some i)
    (h2 : NVHDR + (buf.drop i).getD 3 0 + 1 ≤ (buf.drop i).length)
    (h3 : nvCRCok ((buf.drop i).take (NVHDR + (buf.drop i).getD 3 0 + 1)) = false) :
    nvStep buf = .consumed (i + 2) none ∧
    (procOnce .NOVATEL_OEM6 buf).2 = (procOnce .NOVATEL_OEM6 (buf.drop (i + 2))).2 := by
  have hstep : nvStep buf = .consumed (i + 2) none := by
    unfold nvStep
    simp only [h1]
    rw [if_neg (by omega), if_neg (by omega)]
    rw [if_neg (by rw [h3]; exact Bool.false_ne_true)]
  refine ⟨hstep, ?_⟩
  rw [show procOnce PARSERS.NOVATEL_OEM6 buf = procD nvStep buf from rfl,
    procD_cons nvStep (fun _ _ _ h => nvStep_bounds h) hstep]
  simp only [Option.toList_none, List.nil_append]
  rfl

/-- Witness for C4: frame `[170,68,1,2,7,8,227]` (payload byte flipped, CRC
now wrong) followed by the valid frame `[170,68,1,2,7,9,227]`; the parser
resynchronizes and still decodes the valid frame. -/
theorem novatel_crc_fail_resync_witness :
    (findPre [170, 68, 1, 2, 7, 8, 227, 170, 68, 1, 2, 7, 9, 227] = some 0 ∧
      NVHDR + (([170, 68, 1, 2, 7, 8, 227, 170, 68, 1, 2, 7, 9, 227].drop 0).getD 3 0) + 1
        ≤ ([170, 68, 1, 2, 7, 8, 227, 170, 68, 1, 2, 7, 9, 227].drop 0).length ∧
      nvCRCok (([170, 68, 1, 2, 7, 8, 227, 170, 68, 1, 2, 7, 9, 227].drop 0).take
        (NVHDR + ([170, 68, 1, 2, 7, 8, 227, 170, 68, 1, 2, 7, 9, 227].drop 0).getD 3 0 + 1))
        = false) ∧
    (nvStep [170, 68, 1, 2, 7, 8, 227, 170, 68, 1, 2, 7, 9, 227] = .consumed 2 none ∧
      (procOnce .NOVATEL_OEM6 [170, 68, 1, 2, 7, 8, 227, 170, 68, 1, 2, 7, 9, 227]).2
        = (procOnce .NOVATEL_OEM6
            ([170, 68, 1, 2, 7, 8, 227, 170, 68, 1, 2, 7, 9, 227].drop 2)).2) ∧
    (procOnce .NOVATEL_OEM6 [170, 68, 1, 2, 7, 8, 227, 170, 68, 1, 2, 7, 9, 227]).2
      = [[170, 68, 1, 2, 7, 9, 227]] :=
  ⟨by decide, novatel_crc_fail_resync _ 0 (by decide) (by decide) (by decide), by decide⟩

/-- `lastSel` looks at the later frames first. -/
theorem lastSel_append {α : Type} (sel : List Nat → Option α) (a b : List (List Nat)) :
    lastSel sel (a ++ b) = (lastSel sel b).or (lastSel sel a) := by
  unfold lastSel
  rw [List.reverse_append, List.findSome?_append]

/-- The last-write-wins tracker fold computes the last selected value. -/
theorem trackFold_eq {α : Type} (sel : List Nat → Option α) :
    ∀ (fs : List (List Nat)) (a : α),
      trackFold sel a fs = (lastSel sel fs).getD a := by
  intro fs
  induction fs with
  | nil => intro a; simp [trackFold, lastSel]
  | cons f fs ih =>
    intro a
    have h1 : trackFold sel a (f :: fs) = trackFold sel ((sel f).getD a) fs := rfl
    rw [h1, ih]
    have h2 : f :: fs = [f] ++ fs := rfl
    rw [h2, lastSel_append]
    cases hl : lastSel sel fs with
    | some v => simp [Option.or]
    | none => cases hf : sel f <;> simp [lastSel, List.findSome?, Option.or, hf]

/-- The signal-acquired flag after a feed equals the latest fix-quality
verdict among the decoded frames, defaulting to the starting flag. -/
theorem feedState_signal (s : GPSState) (cs : List (List Nat)) :
    (feedState s cs).signalAcquired
      = (lastSel frameFix (feedFrames s cs)).getD s.signalAcquired := by
  induction cs generalizing s with
  | nil => simp [feedState, feedFrames, lastSel]
  | cons c cs ih =>
    simp only [feedState, feedFrames]
    rw [ih (doProcess s c)]
    have hdp : (doProcess s c).signalAcquired
        = (lastSel frameFix (procOnce s.parser (s.rx ++ c)).2).getD s.signalAcquired := by
      simp only [doProcess]
      rw [trackFold_eq]
    rw [hdp, lastSel_append]
    cases hl : lastSel frameFix (feedFrames (doProcess s c) cs) with
    | some v => simp [Option.or]
    | none => simp [Option.or]

/-- The cached GGA text after a feed is the latest decoded GGA frame,
defaulting to the starting cache. -/
theorem feedState_lastGGA (s : GPSState) (cs : List (List Nat)) :
    (feedState s cs).lastGGA
      = (lastSel selGGA (feedFrames s cs)).getD s.lastGGA := by
  induction cs generalizing s with
  | nil => simp [feedState, feedFrames, lastSel]
  | cons c cs ih =>
    simp only [feedState, feedFrames]
    rw [ih (doProcess s c)]
    have hdp : (doProcess s c).lastGGA
        = (lastSel selGGA (procOnce s.parser (s.rx ++ c)).2).getD s.lastGGA := by
      simp only [doProcess]
      rw [trackFold_eq]
    rw [hdp, lastSel_append]
    cases hl : lastSel selGGA (feedFrames (doProcess s c) cs) with
    | some v => simp [Option.or]
    | none => simp [Option.or]

/-- Emptiness of an appended frame list. -/
theorem isEmpty_app (a b : List (List Nat)) :
    (a ++ b).isEmpty = (a.isEmpty && b.isEmpty) := by
  cases a <;> simp

/-- C5: within a session `m_GPS_comsWork` (read through `isGPS_connected`)
is true after a run of processing steps exactly when it was already true
or some frame of the selected parser was successfully decoded during the
run — so it flips true on the first decoded frame and never resets until
the session restarts. -/
theorem linkAlive_monotone_once_frame (s : GPSState) (cs : List (List Nat)) :
    isGPS_connected (feedState s cs)
      = (isGPS_connected s || !(feedFrames s cs).isEmpty) := by
  induction cs generalizing s with
  | nil => simp [feedState, feedFrames, isGPS_connected]
  | cons c cs ih =>
    simp only [feedState, feedFrames, isGPS_connected] at *
    rw [ih (doProcess s c)]
    have hdp : (doProcess s c).comsWork
        = (s.comsWork || !(procOnce s.parser (s.rx ++ c)).2.isEmpty) := by
      simp only [doProcess]
    rw [hdp, isEmpty_app]
    simp [Bool.or_assoc]

/-- C6: within a session `m_GPS_signalAcquired` (read through
`isGPS_signalAcquired`) equals the verdict of the latest decoded frame
carrying a fix-quality/validity field — true after a valid-fix frame,
false again after a fix-loss frame, previous value when no frame carried
fix information — so it alternates with the fix fields and is not
monotonic. -/
theorem signalAcquired_tracks_last_fix (s : GPSState) (cs : List (List Nat)) :
    isGPS_signalAcquired (feedState s cs)
      = (lastSel frameFix (feedFrames s cs)).getD (isGPS_signalAcquired s) :=
  feedState_signal s cs

/-- C7: while the correction forwarder is not armed, `forward` returns the
`ForwarderInactive` error and writes no bytes to the shared output sink. -/
theorem forward_inactive_no_write (s : GPSState) (bytes sink : List Nat)
    (h : s.useAIMMode = false) :
    forward s bytes sink = (.error .ForwarderInactive, sink) := by
  simp [forward, h]

/-- Witness for C7 at the session-start state. -/
theorem forward_inactive_no_write_witness :
    initState.useAIMMode = false ∧
    forward initState [1, 2, 3] [9] = (.error .ForwarderInactive, [9]) :=
  ⟨by decide, forward_inactive_no_write initState [1, 2, 3] [9] (by decide)⟩

/-- C8: after a processing step that decodes a GGA sentence (latest such
frame `g`), `getLastGGA` with reset (the default) returns `g`; without
reset it returns `g` and leaves the state unchanged; and after a
resetting call, feeds that decode no further GGA frame leave the cache
empty, so subsequent resetting calls return the empty string. -/
theorem getLastGGA_fetch_and_reset (s : GPSState) (c g : List Nat)
    (hg : lastSel selGGA (procOnce s.parser (s.rx ++ c)).2 = some g) :
    (getLastGGA true (doProcess s c)).1 = g ∧
    getLastGGA false (doProcess s c) = (g, doProcess s c) ∧
    (∀ cs, lastSel selGGA (feedFrames (getLastGGA true (doProcess s c)).2 cs) = none →
      (getLastGGA true (feedState (getLastGGA true (doProcess s c)).2 cs)).1 = []) := by
  have hga : (doProcess s c).lastGGA = g := by
    simp only [doProcess]
    rw [trackFold_eq, hg]
    rfl
  refine ⟨?_, ?_, ?_⟩
  · simp [getLastGGA, hga]
  · simp [getLastGGA, hga]
  · intro cs hnone
    show (feedState (getLastGGA true (doProcess s c)).2 cs).lastGGA = []
    rw [feedState_lastGGA, hnone]
    show ((getLastGGA true (doProcess s c)).2).lastGGA = []
    simp [getLastGGA]

/-- Witness for C8: a valid GGA sentence is cached and fetched, and a
junk-only follow-up feed leaves the reset cache empty. -/
theorem getLastGGA_fetch_and_reset_witness :
    (lastSel selGGA (procOnce initState.parser
        (initState.rx ++ strBytes "$GPGGA,1*4B\n")).2 = some (strBytes "$GPGGA,1*4B")) ∧
    ((getLastGGA true (doProcess initState (strBytes "$GPGGA,1*4B\n"))).1
        = strBytes "$GPGGA,1*4B" ∧
      getLastGGA false (doProcess initState (strBytes "$GPGGA,1*4B\n"))
        = (strBytes "$GPGGA,1*4B", doProcess initState (strBytes "$GPGGA,1*4B\n"))) ∧
    (lastSel selGGA (feedFrames
        (getLastGGA true (doProcess initState (strBytes "$GPGGA,1*4B\n"))).2 [[49]]) = none ∧
      (getLastGGA true (feedState
        (getLastGGA true (doProcess initState (strBytes "$GPGGA,1*4B\n"))).2 [[49]])).1 = []) :=
  ⟨by decide,
    ⟨(getLastGGA_fetch_and_reset initState (strBytes "$GPGGA,1*4B\n")
        (strBytes "$GPGGA,1*4B") (by decide)).1,
      (getLastGGA_fetch_and_reset initState (strBytes "$GPGGA,1*4B\n")
        (strBytes "$GPGGA,1*4B") (by decide)).2.1⟩,
    by decide,
    (getLastGGA_fetch_and_reset initState (strBytes "$GPGGA,1*4B\n")
      (strBytes "$GPGGA,1*4B") (by decide)).2.2 [[49]] (by decide)⟩

/-- C9: `setParser` followed by `getParser` returns exactly the parser
that was set, for every parser value and every starting state. -/
theorem setParser_getParser_roundtrip (p : PARSERS) (s : GPSState) :
    getParser (setParser p s) = p := rfl

/-- C10: `setExternCOM` assigns exactly `m_out_COM` and `m_cs_out_COM`,
leaves every other field of the object unchanged, and afterwards
`useExternCOM` returns true exactly when the `outPort` pointer passed was
non-NULL. -/
theorem setExternCOM_frame_effect (outPort csOutPort : Option Nat) (s : GPSState) :
    (setExternCOM outPort csOutPort s).out_COM = outPort ∧
    (setExternCOM outPort csOutPort s).cs_out_COM = csOutPort ∧
    (setExternCOM outPort csOutPort s).rx = s.rx ∧
    (setExternCOM outPort csOutPort s).parser = s.parser ∧
    (setExternCOM outPort csOutPort s).comsWork = s.comsWork ∧
    (setExternCOM outPort csOutPort s).signalAcquired = s.signalAcquired ∧
    (setExternCOM outPort csOutPort s).lastGGA = s.lastGGA ∧
    (setExternCOM outPort csOutPort s).AIMConfigured = s.AIMConfigured ∧
    (setExternCOM outPort csOutPort s).useAIMMode = s.useAIMMode ∧
    (setExternCOM outPort csOutPort s).COMname = s.COMname ∧
    (setExternCOM outPort csOutPort s).COMbauds = s.COMbauds ∧
    (useExternCOM (setExternCOM outPort csOutPort s) = true ↔ outPort ≠ none) := by
  refine ⟨rfl, rfl, rfl, rfl, rfl, rfl, rfl, rfl, rfl, rfl, rfl, ?_⟩
  cases outPort <;> simp [useExternCOM, setExternCOM]
